import Mathlib

/-!
Verification of the traceroute probing engine (Go package `traceroute`).

The Go source launches one traceroute process per TTL (parallel strategy on
Unix) or a single process covering all TTLs (sequential strategy on Windows
or as fallback), parses each output line with anchored regular expressions,
and reconciles the per-TTL results into an ordered hop stream.

This file gives a shallow embedding of that code:

* the three Unix line regexes and the three Windows line regexes are embedded
  as deterministic character-level matchers.  Every quantified class in those
  patterns is followed either by a class disjoint from it or by a literal
  that the class cannot match, so in each pattern the greedy maximal-munch
  parse is the only possible parse; the embeddings below therefore agree
  with the RE2 semantics of the Go regexp package on all inputs;
* `parseUnixLine` and `parseWindowsLine` mirror the Go functions of the same
  names, including the timeout/hop tie-break order;
* the per-TTL probe body, the reconciliation scan of `runParallel`, and the
  scanning loop of `runSequential` are embedded as pure functions over the
  probe process output (given as a list of lines).  External effects are
  parameters: reverse DNS is a function `String -> Option String`, host
  lookup is a function `String -> Option (List String)`, and context
  cancellation is an explicit fuel argument marking the select statement at
  which `ctx.Done` is observed.

Go `int` values appearing here (TTL, MaxHops, TimeoutMs) are modeled as
`Nat`: the claims under verification only concern non-negative values, where
Go truncating division and `Nat` division agree.  `RTT float64` is modeled
as `Rat` holding the exact decimal value accepted by `strconv.ParseFloat`
(or 0 on a parse error, matching the discarded error); no claim depends on
binary rounding of that value.
-/

namespace Traceroute

/-- One traceroute hop result, mirroring the Go struct `Hop`.  Field defaults
are the Go zero values, so the empty structure literal is the Go zero value
of the struct. -/
structure Hop where
  TTL : Nat := 0
  IP : String := ""
  Hostname : String := ""
  RTT : Rat := 0
  Success : Bool := false
  IsFinal : Bool := false
  IsTimeout : Bool := false
deriving DecidableEq, Repr

/-- Run configuration, mirroring the Go struct `Options` with the defaults of
`DefaultOptions`. -/
structure Options where
  MaxHops : Nat := 30
  TimeoutMs : Nat := 3000
deriving DecidableEq, Repr

/-- Terminal error of a run: `ErrMaxHopsReached` in the Go code.  A `none`
error models the Go `nil` return. -/
inductive RunError where
  | maxHopsReached
deriving DecidableEq, Repr

/-! ## Character classes of the Go regexes (RE2) -/

/-- RE2 class `\s`, which is exactly the set tab, newline, form feed,
carriage return, space. -/
def reSpace (c : Char) : Bool :=
  c = ' ' || c = '\t' || c = '\n' || c = '\x0c' || c = '\r'

/-- RE2 class `\d`. -/
def reDigit (c : Char) : Bool := c.isDigit

/-- RE2 class `[\d.]`. -/
def reDigitDot (c : Char) : Bool := c.isDigit || c = '.'

/-- RE2 class `\S`. -/
def reNonSpace (c : Char) : Bool := !reSpace c

/-- Whitespace trimmed by Go `strings.TrimSpace` (`unicode.IsSpace`),
restricted to the Latin-1 range: space, tab, newline, vertical tab, form
feed, carriage return, next line, no-break space.  Wider Unicode space
classes do not occur in traceroute output and are not modeled. -/
def goUnicodeSpace (c : Char) : Bool :=
  c = ' ' || c = '\t' || c = '\n' || c = '\x0b' || c = '\x0c' || c = '\r' ||
  c = '\x85' || c = '\xa0'

/-- Go `strings.TrimSpace` on a character list. -/
def goTrimSpace (s : List Char) : List Char :=
  ((s.dropWhile goUnicodeSpace).reverse.dropWhile goUnicodeSpace).reverse

/-- Whether `pre` is an initial segment of `s`, as in Go `strings.HasPrefix`. -/
def listStartsWith : List Char → List Char → Bool
  | [], _ => true
  | _ :: _, [] => false
  | p :: ps, c :: cs => p = c && listStartsWith ps cs

/-! ## Regex building blocks -/

/-- Greedy `+` over a one-character class: consumes the maximal nonempty run
of characters satisfying `p` and returns it with the rest, failing on an
empty run.  For every use below the following regex element rejects the
class `p`, so this maximal munch is the unique possible split. -/
def takePlus (p : Char → Bool) (s : List Char) : Option (List Char × List Char) :=
  if (s.takeWhile p).isEmpty then none else some (s.takeWhile p, s.dropWhile p)

/-- A single literal character of the pattern. -/
def expectChar (c : Char) : List Char → Option (List Char)
  | x :: rest => if x = c then some rest else none
  | [] => none

/-- The group `(\d+\.\d+\.\d+\.\d+)`: returns the captured characters and the
rest of the input. -/
def matchQuad (s : List Char) : Option (List Char × List Char) :=
  (takePlus reDigit s).bind fun p1 =>
  (expectChar '.' p1.2).bind fun s2 =>
  (takePlus reDigit s2).bind fun p2 =>
  (expectChar '.' p2.2).bind fun s4 =>
  (takePlus reDigit s4).bind fun p3 =>
  (expectChar '.' p3.2).bind fun s6 =>
  (takePlus reDigit s6).map fun p4 =>
  (p1.1 ++ '.' :: p2.1 ++ '.' :: p3.1 ++ '.' :: p4.1, p4.2)

/-- Go `reUnixTimeout`, the anchored regex matching a numbered line followed
by an asterisk; returns the captured TTL digits. -/
def matchUnixTimeout (s : List Char) : Option (List Char) :=
  (takePlus reDigit (s.dropWhile reSpace)).bind fun pt =>
  (takePlus reSpace pt.2).bind fun pw =>
  (expectChar '*' pw.2).map fun _ => pt.1

/-- Go `reUnixHopNumeric`, the anchored numeric hop regex; returns the TTL
digits, the IP characters and the RTT characters. -/
def matchUnixNumeric (s : List Char) : Option (List Char × List Char × List Char) :=
  (takePlus reDigit (s.dropWhile reSpace)).bind fun pt =>
  (takePlus reSpace pt.2).bind fun w1 =>
  (matchQuad w1.2).bind fun pip =>
  (takePlus reSpace pip.2).bind fun w2 =>
  (takePlus reDigitDot w2.2).bind fun prtt =>
  (takePlus reSpace prtt.2).bind fun w3 =>
  (expectChar 'm' w3.2).bind fun s7 =>
  (expectChar 's' s7).map fun _ => (pt.1, pip.1, prtt.1)

/-- Go `reUnixHopNamed`, the anchored named hop regex; returns the TTL
digits, the hostname characters, the IP characters and the RTT characters. -/
def matchUnixNamed (s : List Char) :
    Option (List Char × List Char × List Char × List Char) :=
  (takePlus reDigit (s.dropWhile reSpace)).bind fun pt =>
  (takePlus reSpace pt.2).bind fun w1 =>
  (takePlus reNonSpace w1.2).bind fun ph =>
  (takePlus reSpace ph.2).bind fun w2 =>
  (expectChar '(' w2.2).bind fun s4 =>
  (matchQuad s4).bind fun pip =>
  (expectChar ')' pip.2).bind fun s6 =>
  (takePlus reSpace s6).bind fun w3 =>
  (takePlus reDigitDot w3.2).bind fun prtt =>
  (takePlus reSpace prtt.2).bind fun w4 =>
  (expectChar 'm' w4.2).bind fun s9 =>
  (expectChar 's' s9).map fun _ => (pt.1, ph.1, pip.1, prtt.1)

/-- Go `reWinTimeout`, which is the same pattern as `reUnixTimeout`. -/
def matchWinTimeout (s : List Char) : Option (List Char) :=
  matchUnixTimeout s

/-- One repetition of the group of the windows hop regex: an optional
angle bracket, digits, whitespace, the letters of the millisecond unit and
trailing whitespace; returns the rest of the input.  The optional bracket is
forced: the following element requires a digit. -/
def matchWinRep (s : List Char) : Option (List Char) :=
  let s0 := match s with
    | '<' :: rest => rest
    | _ => s
  (takePlus reDigit s0).bind fun pd =>
  (takePlus reSpace pd.2).bind fun pw =>
  (expectChar 'm' pw.2).bind fun s3 =>
  (expectChar 's' s3).bind fun s4 =>
  (takePlus reSpace s4).map fun pw2 => pw2.2

/-- The tail of the windows hop regex after the repetitions: optional
whitespace followed by the captured nonspace run. -/
def matchWinAfterReps (s : List Char) : Option (List Char) :=
  (takePlus reNonSpace (s.dropWhile reSpace)).map fun p => p.1

/-- Go `reWinHop`: TTL, one to three greedy millisecond groups, then the
captured host column.  Greediness of the counted repetition means the three
repetition candidate is tried first, then two, then one. -/
def matchWinHop (s : List Char) : Option (List Char × List Char) :=
  (takePlus reDigit (s.dropWhile reSpace)).bind fun pt =>
  (takePlus reSpace pt.2).bind fun pw =>
  (matchWinRep pw.2).bind fun r1 =>
  let cand3 := (matchWinRep r1).bind fun r2 => (matchWinRep r2).bind fun r3 =>
    matchWinAfterReps r3
  let cand2 := (matchWinRep r1).bind fun r2 => matchWinAfterReps r2
  let cand1 := matchWinAfterReps r1
  ((cand3.orElse fun _ => cand2.orElse fun _ => cand1).map fun host => (pt.1, host))

/-- The unanchored Go regex `reWinRTT` tried at one start position: digits,
whitespace, the millisecond unit; returns the captured digits. -/
def matchRTTAt (s : List Char) : Option (List Char) :=
  (takePlus reDigit s).bind fun pd =>
  (takePlus reSpace pd.2).bind fun pw =>
  (expectChar 'm' pw.2).bind fun s3 =>
  (expectChar 's' s3).map fun _ => pd.1

/-- Leftmost match of `reWinRTT` in the line, as used through
`FindAllStringSubmatch` where only the first match is read. -/
def winFirstRTT : List Char → Option (List Char)
  | [] => none
  | c :: rest =>
    match matchRTTAt (c :: rest) with
    | some d => some d
    | none => winFirstRTT rest

/-! ## Number conversions -/

/-- Value of a run of decimal digits, as read by `strconv.Atoi` on the
captured `\d+` groups (the claims only involve values far below the Go
`int` overflow range). -/
def digitsToNat (ds : List Char) : Nat :=
  ds.foldl (fun n c => n * 10 + (c.toNat - '0'.toNat)) 0

/-- Go `strconv.ParseFloat` on a capture drawn from `[\d.]+`, with the error
discarded as in the source: a string with at most one dot and at least one
digit yields its exact decimal value, anything else yields 0. -/
def goParseFloat (ds : List Char) : Rat :=
  if ds.count '.' ≤ 1 && ds.any reDigit then
    let intPart := ds.takeWhile (fun c => c ≠ '.')
    let frac := (ds.dropWhile (fun c => c ≠ '.')).drop 1
    mkRat (digitsToNat (intPart ++ frac)) (10 ^ frac.length)
  else 0

/-! ## Line parsers -/

/-- The numeric and named branches of `parseUnixLine`, reached when the
timeout branch does not return. -/
def unixHopOf (s : List Char) (destIP : String) : Hop × Bool :=
  match matchUnixNumeric s with
  | some (ttl, ip, rtt) =>
    ({ TTL := digitsToNat ttl, IP := String.mk ip, RTT := goParseFloat rtt,
       Success := true,
       IsFinal := !(destIP == "") && (String.mk ip == destIP) }, true)
  | none =>
    match matchUnixNamed s with
    | some (ttl, host, ip, rtt) =>
      ({ TTL := digitsToNat ttl, IP := String.mk ip, Hostname := String.mk host,
         RTT := goParseFloat rtt, Success := true,
         IsFinal := !(destIP == "") && (String.mk ip == destIP) }, true)
    | none => ({}, false)

/-- Go `parseUnixLine`: the timeout pattern wins only when neither hop
pattern matches the same line; otherwise the numeric branch is tried, then
the named branch, and a line matching nothing is not a data line. -/
def parseUnixLine (line destIP : String) : Hop × Bool :=
  let s := line.toList
  match matchUnixTimeout s with
  | some ds =>
    if s.contains '*' && (matchUnixNumeric s).isNone && (matchUnixNamed s).isNone then
      ({ TTL := digitsToNat ds, Success := false, IsTimeout := true }, true)
    else unixHopOf s destIP
  | none => unixHopOf s destIP

/-- First index at which `pat` occurs in `s`, as in Go `strings.Index`. -/
def findSubIdx (pat : List Char) : List Char → Option Nat
  | [] => if pat.isEmpty then some 0 else none
  | c :: rest =>
    if listStartsWith pat (c :: rest) then some 0
    else (findSubIdx pat rest).map (· + 1)

/-- Go `strings.Trim(x, y)` for the single cut character `]`. -/
def trimBrackets (s : List Char) : List Char :=
  ((s.dropWhile (fun c => c = ']')).reverse.dropWhile (fun c => c = ']')).reverse

/-- The host column split of `parseWindowsLine`: when the column contains a
space and an opening square bracket the part before it is the hostname and
the bracketed part the IP, otherwise the whole column is the IP. -/
def splitHostBracket (host : List Char) : List Char × List Char :=
  match findSubIdx (' ' :: ['[']) host with
  | none => (host, [])
  | some idx => (trimBrackets (host.drop (idx + 2)), host.take idx)

/-- Go `parseWindowsLine`: the timeout pattern is checked first (it can
never overlap the hop pattern, whose first data column starts with a digit
or an angle bracket), then the hop pattern with its RTT and host split. -/
def parseWindowsLine (line destIP : String) : Hop × Bool :=
  let s := line.toList
  if (matchWinTimeout s).isSome && s.contains '*' then
    ({ TTL := digitsToNat ((matchWinTimeout s).getD []), Success := false,
       IsTimeout := true }, true)
  else
    match matchWinHop s with
    | none => ({}, false)
    | some (ttlDs, hostChars) =>
      let host := goTrimSpace hostChars
      let rtt := match winFirstRTT s with
        | some d => goParseFloat d
        | none => 0
      let ipHost := splitHostBracket host
      ({ TTL := digitsToNat ttlDs, IP := String.mk ipHost.1,
         Hostname := String.mk ipHost.2, RTT := rtt, Success := true,
         IsFinal := !(destIP == "") &&
           (String.mk ipHost.1 == destIP || String.mk host == destIP) }, true)

/-! ## Destination resolver

Go `net.ParseIP` accepts a dotted-quad IPv4 literal exactly when it has four
fields of decimal digits, each without leading zeros and at most 255, and on
such input `ip.String()` re-renders exactly the input text, so the literal
branch of `resolveIPs` stores the host string itself.  IPv6 literals (which
contain a colon) are outside the modeled scope.  `net.LookupHost` is a
parameter: `none` models a resolution error. -/

/-- One decimal field of an IPv4 literal as accepted by `net.ParseIP`:
nonempty digits, no leading zero, value at most 255. -/
def validV4Field (f : List Char) : Bool :=
  !f.isEmpty && f.all reDigit && (f.length = 1 || f.head? ≠ some '0') &&
  digitsToNat f ≤ 255

/-- Whether `net.ParseIP` accepts the host as an IPv4 dotted-quad literal. -/
def isGoIPv4Literal (host : String) : Bool :=
  let fs := host.splitOn "."
  fs.length = 4 && fs.all fun f => validV4Field f.toList

/-- Go `resolveIPs`: the set of IPv4 addresses of a host, as a list standing
for the Go map used as a set (iteration order of that map is arbitrary; no
claim depends on the order).  A literal stays itself, a lookup error gives
the empty set, and looked-up addresses are kept only when they parse as
IPv4. -/
def resolveIPs (lookupHost : String → Option (List String)) (host : String) :
    List String :=
  if isGoIPv4Literal host then [host]
  else
    match lookupHost host with
    | none => []
    | some addrs => (addrs.filter isGoIPv4Literal).dedup

/-- Go `resolveIP`: some element of the set, or the host itself when the set
is empty. -/
def resolveIP (lookupHost : String → Option (List String)) (host : String) :
    String :=
  match resolveIPs lookupHost host with
  | [] => host
  | ip :: _ => ip

/-! ## Probe process arguments (Engine Facade) -/

/-- The per-hop wait in whole seconds computed at the top of `runParallel`
and `runSequential`: integer division by 1000, clamped up to 1. -/
def clampTimeoutSecs (timeoutMs : Nat) : Nat :=
  let t := timeoutMs / 1000
  if t < 1 then 1 else t

/-- Argument list of one per-TTL probe invocation in `runParallel`; the
value after the wait flag is `clampTimeoutSecs` seconds. -/
def parallelProbeArgs (opts : Options) (ttl : Nat) (dest : String) : List String :=
  ["-f", toString ttl, "-m", toString ttl, "-q", "1",
   "-w", toString (clampTimeoutSecs opts.TimeoutMs), "-n", dest]

/-- Binary and argument list of the single invocation in `runSequential`.
On Windows the value after the wait flag is `opts.TimeoutMs` itself, in
milliseconds; elsewhere it is `clampTimeoutSecs` seconds. -/
def sequentialCmd (goos : String) (opts : Options) (binary dest : String) :
    String × List String :=
  if goos = "windows" then
    ("tracert", ["-h", toString opts.MaxHops, "-w", toString opts.TimeoutMs, dest])
  else
    (binary, ["-m", toString opts.MaxHops, "-w",
              toString (clampTimeoutSecs opts.TimeoutMs), "-q", "1", dest])

/-! ## Parallel strategy: per-TTL probe goroutine body -/

/-- The line loop of one probe goroutine in `runParallel`: each output line
is trimmed, blank lines and the banner line are skipped, and the first line
the Unix parser accepts provides the hop. -/
def firstParsedHop (destIP : String) : List String → Option Hop
  | [] => none
  | line :: rest =>
    let l := goTrimSpace line.toList
    if l.isEmpty || listStartsWith "traceroute".toList l then
      firstParsedHop destIP rest
    else
      match parseUnixLine (String.mk l) destIP with
      | (h, true) => some h
      | (_, false) => firstParsedHop destIP rest

/-- The rest of the probe goroutine body: when no line parsed (zero TTL of
the zero `Hop`) a timed-out hop for this TTL is synthesized, and a
successful hop without a hostname gets a best-effort reverse lookup,
modeled by the parameter `rdns` (already stripped of the trailing dot as in
the source). -/
def probeHop (destIP : String) (rdns : String → Option String) (ttl : Nat)
    (outLines : List String) : Hop :=
  let hop := (firstParsedHop destIP outLines).getD {}
  let hop := if hop.TTL = 0 then
    { TTL := ttl, Success := false, IsTimeout := true } else hop
  if hop.Success && (hop.Hostname == "") && !(hop.IP == "") then
    match rdns hop.IP with
    | some name => { hop with Hostname := name }
    | none => hop
  else hop

/-- The results buffer after the barrier `wg.Wait()`: slot `i` holds the
result of TTL `i+1`.  A `none` slot stands for a goroutine that was never
started (only possible under cancellation); in an uncancelled run every
slot is filled. -/
def probeSlots (destIP : String) (rdns : String → Option String)
    (maxHops : Nat) (out : Nat → List String) : List (Option Hop) :=
  (List.range maxHops).map fun i => some (probeHop destIP rdns (i + 1) (out (i + 1)))

/-! ## Parallel strategy: reconciliation -/

/-- The test of the reconciliation scan in `runParallel`: a hop reached the
destination when it succeeded and either already looked final locally or
hit any resolved destination address. -/
def finalCandidate (destIPs : List String) (h : Hop) : Bool :=
  h.Success && (h.IsFinal || (!destIPs.isEmpty && destIPs.contains h.IP))

/-- The first scan of `runParallel`: walk the slots in index order and
return the TTL recorded in the first slot passing `finalCandidate`, or 0
when none does. -/
def findTrueFinal (destIPs : List String) : List (Option Hop) → Nat
  | [] => 0
  | none :: rest => findTrueFinal destIPs rest
  | some h :: rest =>
    if finalCandidate destIPs h then h.TTL else findTrueFinal destIPs rest

/-- The flag correction applied to each emitted hop: final exactly when the
true final TTL is positive and equals the TTL of the hop. -/
def correctFinal (t : Nat) (h : Hop) : Hop :=
  { h with IsFinal := decide (0 < t) && (h.TTL == t) }

/-- The emission loop of `runParallel`: slots in index order, flags
corrected, stopping right after emitting the hop marked final. -/
def emitHops (t : Nat) : List (Option Hop) → List Hop
  | [] => []
  | none :: rest => emitHops t rest
  | some h :: rest =>
    let h := correctFinal t h
    if h.IsFinal then [h] else h :: emitHops t rest

/-- Reconciliation and emission of an uncancelled parallel run over a
filled results buffer: the emitted hops, and `ErrMaxHopsReached` exactly
when no slot reached the destination. -/
def reconcileEmit (destIPs : List String) (slots : List (Option Hop)) :
    List Hop × Option RunError :=
  let t := findTrueFinal destIPs slots
  (emitHops t slots, if t = 0 then some RunError.maxHopsReached else none)

/-- The whole pure part of `runParallel` for an uncancelled run, from the
per-TTL process outputs to the emitted hops and terminal error. -/
def runParallelPure (destIPs : List String) (destIP : String)
    (rdns : String → Option String) (maxHops : Nat) (out : Nat → List String) :
    List Hop × Option RunError :=
  reconcileEmit destIPs (probeSlots destIP rdns maxHops out)

/-- The emission loop of `runParallel` under cancellation: `budget` counts
the channel sends that complete before `ctx.Done` is observed; the select
observing cancellation makes the function return immediately.  The second
component records whether the loop was interrupted. -/
def emitHopsCancel (t : Nat) : Nat → List (Option Hop) → List Hop × Bool
  | _, [] => ([], false)
  | b, none :: rest => emitHopsCancel t b rest
  | 0, some _ :: _ => ([], true)
  | b + 1, some h :: rest =>
    let h := correctFinal t h
    if h.IsFinal then ([h], false)
    else
      let p := emitHopsCancel t b rest
      (h :: p.1, p.2)

/-- Reconciliation of a cancelled parallel run: whether emission was cut
short by the select or ran to completion, the final context check of
`runParallel` returns the `nil` error before the max-hops classification
can fire. -/
def reconcileEmitCancelled (destIPs : List String) (slots : List (Option Hop))
    (budget : Nat) : List Hop × Option RunError :=
  ((emitHopsCancel (findTrueFinal destIPs slots) budget slots).1, none)

/-! ## Sequential strategy -/

/-- Aggregate state of the `runSequential` scanning loop. -/
structure SeqState where
  emitted : List Hop := []
  reached : Bool := false
  lastTTL : Nat := 0
  interrupted : Bool := false
deriving DecidableEq, Repr

/-- Platform selection of the line parser in `runSequential`. -/
def seqParse (goos line destIP : String) : Hop × Bool :=
  if goos = "windows" then parseWindowsLine line destIP
  else parseUnixLine line destIP

/-- The skip test of the `runSequential` loop: empty lines and the banner
lines of either tool. -/
def skipLine (line : String) : Bool :=
  line = "" || listStartsWith "traceroute".toList (goTrimSpace line.toList) ||
  listStartsWith "Tracing".toList (goTrimSpace line.toList)

/-- The scanning loop of `runSequential`: parse and forward each data line
as it streams, track the highest TTL seen, and stop at the first hop that
is locally final. -/
def seqLoop (goos destIP : String) : List String → Nat → SeqState
  | [], last => { lastTTL := last }
  | line :: rest, last =>
    if skipLine line then seqLoop goos destIP rest last
    else
      match seqParse goos line destIP with
      | (_, false) => seqLoop goos destIP rest last
      | (hop, true) =>
        let last' := if last < hop.TTL then hop.TTL else last
        if hop.IsFinal then { emitted := [hop], reached := true, lastTTL := last' }
        else
          let st := seqLoop goos destIP rest last'
          { st with emitted := hop :: st.emitted }

/-- The pure part of `runSequential` on the output stream of the process:
after the loop, `ErrMaxHopsReached` is returned exactly when no final hop
was seen and the highest TTL reached the hop budget; every other exit,
including an output stream that simply ends early, returns the `nil`
error. -/
def runSequentialPure (goos destIP : String) (maxHops : Nat)
    (lines : List String) : List Hop × Option RunError :=
  let st := seqLoop goos destIP lines 0
  (st.emitted,
   if !st.reached && decide (maxHops ≤ st.lastTTL) then
     some RunError.maxHopsReached
   else none)

/-- The `runSequential` loop under cancellation: `budget` counts loop
iterations before the select at the top of the loop observes `ctx.Done`,
kills the process and returns the `nil` error. -/
def seqLoopCancel (goos destIP : String) : Nat → List String → Nat → SeqState
  | _, [], last => { lastTTL := last }
  | 0, _ :: _, last => { lastTTL := last, interrupted := true }
  | b + 1, line :: rest, last =>
    if skipLine line then seqLoopCancel goos destIP b rest last
    else
      match seqParse goos line destIP with
      | (_, false) => seqLoopCancel goos destIP b rest last
      | (hop, true) =>
        let last' := if last < hop.TTL then hop.TTL else last
        if hop.IsFinal then { emitted := [hop], reached := true, lastTTL := last' }
        else
          let st := seqLoopCancel goos destIP b rest last'
          { st with emitted := hop :: st.emitted }

/-- A cancelled sequential run: when the loop was interrupted the function
returns the `nil` error at the select; when the stream ended before the
cancellation was observed the normal classification runs. -/
def runSequentialCancelled (goos destIP : String) (maxHops : Nat)
    (lines : List String) (budget : Nat) : List Hop × Option RunError :=
  let st := seqLoopCancel goos destIP budget lines 0
  (st.emitted,
   if st.interrupted then none
   else if !st.reached && decide (maxHops ≤ st.lastTTL) then
     some RunError.maxHopsReached
   else none)

/-! ## Slot well-formedness

Each probe process is invoked with the first and maximum TTL flags pinned
to its own TTL, so the hop recorded in slot `i` carries TTL `i+1`; the
synthesized timeout hop does by construction.  The claims about a parallel
run are stated under this well-formedness of the results buffer. -/

/-- Slot `i` of the buffer, counted from `base`, holds a hop of TTL
`base + i + 1` when filled. -/
def wfSlots : Nat → List (Option Hop) → Bool
  | _, [] => true
  | base, none :: rest => wfSlots (base + 1) rest
  | base, some h :: rest => h.TTL == base + 1 && wfSlots (base + 1) rest

/-! ## Statements of the verified properties -/

/-- Correctness of the reconciliation step of `runParallel` over a results
buffer: the selected TTL is the one recorded in the first slot passing the
final-hop test with all earlier filled slots failing it, every emitted hop
carries the corrected flag (so every hop other than the true final hop has
its flag cleared), emission is in strictly ascending TTL order, and when a
final hop exists no emitted hop lies beyond it. -/
def ReconcileSpec (ips : List String) (slots : List (Option Hop)) : Prop :=
  (findTrueFinal ips slots ≠ 0 →
    ∃ pre h suf, slots = pre ++ some h :: suf ∧ finalCandidate ips h = true ∧
      findTrueFinal ips slots = h.TTL ∧
      ∀ g, some g ∈ pre → finalCandidate ips g = false) ∧
  (∀ h ∈ (reconcileEmit ips slots).1,
    h.IsFinal = (decide (0 < findTrueFinal ips slots) &&
      (h.TTL == findTrueFinal ips slots))) ∧
  (reconcileEmit ips slots).1.Pairwise (fun a b => a.TTL < b.TTL) ∧
  (findTrueFinal ips slots ≠ 0 →
    ∀ h ∈ (reconcileEmit ips slots).1, h.TTL ≤ findTrueFinal ips slots)

/-- Invariants of the emitted hop list of a parallel run: at most one hop
is marked final, and a hop marked final succeeded. -/
def FinalFlagSpec (ips : List String) (slots : List (Option Hop)) : Prop :=
  (reconcileEmit ips slots).1.countP (fun h => h.IsFinal) ≤ 1 ∧
  ∀ h ∈ (reconcileEmit ips slots).1, h.IsFinal = true → h.Success = true

/-- Outcome of a parallel run in which no probe succeeded: the max-hops
error, exactly `maxHops` hops emitted, the hop at index `k` being a failed,
timed-out hop of TTL `k+1`; and a probe whose output has no hop-shaped line
yields the synthesized timed-out hop rather than being dropped. -/
def NoSuccessSpec (destIPs : List String) (destIP : String)
    (rdns : String → Option String) (maxHops : Nat) (out : Nat → List String) :
    Prop :=
  (runParallelPure destIPs destIP rdns maxHops out).2 =
    some RunError.maxHopsReached ∧
  (runParallelPure destIPs destIP rdns maxHops out).1.length = maxHops ∧
  (∀ k, k < maxHops →
    ∃ h, (runParallelPure destIPs destIP rdns maxHops out).1[k]? = some h ∧
      h.TTL = k + 1 ∧ h.Success = false ∧ h.IsTimeout = true) ∧
  (∀ ttl outLines, firstParsedHop destIP outLines = none →
    probeHop destIP rdns ttl outLines =
      { TTL := ttl, Success := false, IsTimeout := true })

/-- Behavior of a cancelled run, for both strategies: the terminal error is
the `nil` value (cancellation is never surfaced as the max-hops error or
any failure), and the emitted hops are an initial segment of what the
uncancelled run would emit, so no hop beyond those already discovered is
emitted after cancellation. -/
def CancelSpec (ips : List String) (slots : List (Option Hop)) (budget : Nat)
    (goos destIP : String) (maxHops : Nat) (lines : List String)
    (sbudget : Nat) : Prop :=
  (reconcileEmitCancelled ips slots budget).2 = none ∧
  (∃ k, (reconcileEmitCancelled ips slots budget).1 =
    (reconcileEmit ips slots).1.take k) ∧
  (runSequentialCancelled goos destIP maxHops lines sbudget).2 = none ∧
  (∃ k, (runSequentialCancelled goos destIP maxHops lines sbudget).1 =
    (runSequentialPure goos destIP maxHops lines).1.take k)

/-- The tie-break of `parseUnixLine`: the line is accepted as a data line
and yields a successful hop, not a timeout. -/
def HopBeatsTimeout (line destIP : String) : Prop :=
  (parseUnixLine line destIP).2 = true ∧
  (parseUnixLine line destIP).1.Success = true

/-- The wait clamp on the branches that pass a wait in seconds: the
parallel per-TTL invocation and the non-windows sequential invocation both
receive at least one second after the wait flag. -/
def ClampSpec (opts : Options) (ttl : Nat) (binary dest : String) : Prop :=
  1 ≤ clampTimeoutSecs opts.TimeoutMs ∧
  (parallelProbeArgs opts ttl dest)[6]? = some "-w" ∧
  (parallelProbeArgs opts ttl dest)[7]? =
    some (toString (clampTimeoutSecs opts.TimeoutMs)) ∧
  ∀ goos, goos ≠ "windows" →
    ((sequentialCmd goos opts binary dest).2)[2]? = some "-w" ∧
    ((sequentialCmd goos opts binary dest).2)[3]? =
      some (toString (clampTimeoutSecs opts.TimeoutMs))

/-- A line recognized by no pattern is reported as not a data line by both
parsers, with the zero hop and no error of any kind (the functions have no
error channel at all). -/
def NotDataLine (line destIP : String) : Prop :=
  parseUnixLine line destIP = ({}, false) ∧
  parseWindowsLine line destIP = ({}, false)

/-- Contract of the destination resolver: a literal stays a singleton
containing exactly itself, lookup failure degrades to the empty set with
the display address falling back to the host, every returned address is an
IPv4 literal, and with the empty set the final-hop test degrades to the
locally computed flag, which came from literal equality against the single
display address. -/
def ResolveSpec (lookupHost : String → Option (List String)) (host : String) :
    Prop :=
  (isGoIPv4Literal host = true →
    resolveIPs lookupHost host = [host] ∧ resolveIP lookupHost host = host) ∧
  (isGoIPv4Literal host = false → lookupHost host = none →
    resolveIPs lookupHost host = [] ∧ resolveIP lookupHost host = host) ∧
  (∀ a ∈ resolveIPs lookupHost host, isGoIPv4Literal a = true) ∧
  (∀ h : Hop, finalCandidate [] h = (h.Success && h.IsFinal))

/-- Terminal value of a sequential run whose output stream ends before any
final hop with the highest TTL below the budget: the `nil` error, which is
the same terminal value every reached run returns. -/
def SeqNilSpec (goos destIP : String) (maxHops : Nat) (lines : List String) :
    Prop :=
  (runSequentialPure goos destIP maxHops lines).2 = none ∧
  ∀ lines2, (seqLoop goos destIP lines2 0).reached = true →
    (runSequentialPure goos destIP maxHops lines2).2 = none

/-! ## Concrete witness inputs -/

/-- Destination address set of the reconciliation scenario. -/
def scIPs : List String := ["93.184.216.34"]

/-- Per-TTL probe outputs of the reconciliation scenario: TTLs 1 to 5
answer with intermediate routers, TTLs 6 and 9 both answer with the
destination address, TTL 7 times out, TTL 8 produces no output. -/
def scOut : Nat → List String := fun ttl =>
  match ttl with
  | 1 => ["traceroute to example.com (93.184.216.34), 9 hops max",
          " 1  10.0.0.1  10 ms"]
  | 2 => [" 2  10.0.0.2  20 ms"]
  | 3 => [" 3  10.0.0.3  30 ms"]
  | 4 => [" 4  10.0.0.4  40 ms"]
  | 5 => [" 5  10.0.0.5  50 ms"]
  | 6 => [" 6  93.184.216.34  60 ms"]
  | 7 => [" 7  *"]
  | 8 => [""]
  | 9 => [" 9  93.184.216.34  90 ms"]
  | _ => []

/-- Reverse lookup that always fails, for witness runs. -/
def rdnsNone : String → Option String := fun _ => none

/-- Host lookup that always fails, for witness runs. -/
def lookupNone : String → Option (List String) := fun _ => none

/-- Results buffer of the reconciliation scenario. -/
def scSlots : List (Option Hop) := probeSlots "93.184.216.34" rdnsNone 9 scOut

/-- Probe outputs with no hop-shaped line, for the no-success witness. -/
def nsOut : Nat → List String := fun _ => ["no hop data in this output"]

/-! ## Helper lemmas on the reconciliation step -/

theorem correctFinal_TTL (t : Nat) (h : Hop) : (correctFinal t h).TTL = h.TTL := rfl

theorem correctFinal_Success (t : Nat) (h : Hop) :
    (correctFinal t h).Success = h.Success := rfl

theorem correctFinal_IsFinal (t : Nat) (h : Hop) :
    (correctFinal t h).IsFinal = (decide (0 < t) && (h.TTL == t)) := rfl

theorem emitHops_mem_isFinal (t : Nat) (slots : List (Option Hop)) :
    ∀ h ∈ emitHops t slots, h.IsFinal = (decide (0 < t) && (h.TTL == t)) := by
  induction slots with
  | nil => simp [emitHops]
  | cons o rest ih =>
    cases o with
    | none => simpa [emitHops] using ih
    | some h =>
      intro h' hmem
      rw [emitHops] at hmem
      by_cases hb : (correctFinal t h).IsFinal
      · simp only [if_pos hb, List.mem_singleton] at hmem
        subst hmem
        rw [correctFinal_IsFinal, correctFinal_TTL]
      · simp only [if_neg hb, List.mem_cons] at hmem
        rcases hmem with rfl | hmem
        · rw [correctFinal_IsFinal, correctFinal_TTL]
        · exact ih h' hmem

theorem emitHops_countP_le_one (t : Nat) (slots : List (Option Hop)) :
    (emitHops t slots).countP (fun h => h.IsFinal) ≤ 1 := by
  induction slots with
  | nil => simp [emitHops]
  | cons o rest ih =>
    cases o with
    | none => simpa [emitHops] using ih
    | some h =>
      rw [emitHops]
      by_cases hb : (correctFinal t h).IsFinal
      · simp [if_pos hb, List.countP_cons]
      · simpa [if_neg hb, List.countP_cons, hb] using ih

theorem emitHops_origin (t : Nat) (slots : List (Option Hop)) :
    ∀ h' ∈ emitHops t slots,
      ∃ pre h suf, slots = pre ++ some h :: suf ∧ h' = correctFinal t h := by
  induction slots with
  | nil => simp [emitHops]
  | cons o rest ih =>
    cases o with
    | none =>
      intro h' hmem
      rw [emitHops] at hmem
      obtain ⟨pre, h, suf, hsplit, hcorr⟩ := ih h' hmem
      exact ⟨none :: pre, h, suf, by simp [hsplit], hcorr⟩
    | some h =>
      intro h' hmem
      rw [emitHops] at hmem
      by_cases hb : (correctFinal t h).IsFinal
      · simp only [if_pos hb, List.mem_singleton] at hmem
        exact ⟨[], h, rest, rfl, hmem⟩
      · simp only [if_neg hb, List.mem_cons] at hmem
        rcases hmem with rfl | hmem
        · exact ⟨[], h, rest, rfl, rfl⟩
        · obtain ⟨pre, g, suf, hsplit, hcorr⟩ := ih h' hmem
          exact ⟨some h :: pre, g, suf, by simp [hsplit], hcorr⟩

theorem wfSlots_split_TTL (pre : List (Option Hop)) :
    ∀ (base : Nat) (h : Hop) (suf : List (Option Hop)),
      wfSlots base (pre ++ some h :: suf) = true →
      h.TTL = base + pre.length + 1 := by
  induction pre with
  | nil =>
    intro base h suf hwf
    rw [List.nil_append, wfSlots, Bool.and_eq_true, beq_iff_eq] at hwf
    simpa using hwf.1
  | cons o pre' ih =>
    intro base h suf hwf
    cases o with
    | none =>
      rw [List.cons_append, wfSlots] at hwf
      have := ih (base + 1) h suf hwf
      simp only [List.length_cons]
      omega
    | some g =>
      rw [List.cons_append, wfSlots, Bool.and_eq_true] at hwf
      have := ih (base + 1) h suf hwf.2
      simp only [List.length_cons]
      omega

theorem findTrueFinal_split (ips : List String) (slots : List (Option Hop))
    (hne : findTrueFinal ips slots ≠ 0) :
    ∃ pre h suf, slots = pre ++ some h :: suf ∧ finalCandidate ips h = true ∧
      findTrueFinal ips slots = h.TTL ∧
      ∀ g, some g ∈ pre → finalCandidate ips g = false := by
  induction slots with
  | nil => simp [findTrueFinal] at hne
  | cons o rest ih =>
    cases o with
    | none =>
      rw [findTrueFinal] at hne ⊢
      obtain ⟨pre, h, suf, hsplit, hc, ht, hmin⟩ := ih hne
      refine ⟨none :: pre, h, suf, by simp [hsplit], hc, ht, ?_⟩
      intro g hg
      rcases List.mem_cons.mp hg with hcontra | hg
      · exact absurd hcontra (by simp)
      · exact hmin g hg
    | some h =>
      rw [findTrueFinal] at hne ⊢
      by_cases hc : finalCandidate ips h
      · exact ⟨[], h, rest, rfl, hc, by rw [if_pos hc], by simp⟩
      · rw [if_neg hc] at hne ⊢
        obtain ⟨pre, g, suf, hsplit, hcg, ht, hmin⟩ := ih hne
        refine ⟨some h :: pre, g, suf, by simp [hsplit], hcg, ht, ?_⟩
        intro g' hg'
        rcases List.mem_cons.mp hg' with heq | hg'
        · cases Option.some.inj heq
          exact Bool.eq_false_iff.mpr hc
        · exact hmin g' hg'

theorem findTrueFinal_lb (ips : List String) (slots : List (Option Hop)) :
    ∀ base : Nat, wfSlots base slots = true →
      findTrueFinal ips slots ≠ 0 → base < findTrueFinal ips slots := by
  induction slots with
  | nil => intro base _ hne; simp [findTrueFinal] at hne
  | cons o rest ih =>
    intro base hwf hne
    cases o with
    | none =>
      rw [wfSlots] at hwf
      rw [findTrueFinal] at hne ⊢
      have := ih (base + 1) hwf hne
      omega
    | some h =>
      rw [wfSlots, Bool.and_eq_true, beq_iff_eq] at hwf
      rw [findTrueFinal] at hne ⊢
      by_cases hc : finalCandidate ips h
      · rw [if_pos hc, hwf.1]
        omega
      · rw [if_neg hc] at hne ⊢
        have := ih (base + 1) hwf.2 hne
        omega

theorem emitHops_TTL_lb (t : Nat) (slots : List (Option Hop)) :
    ∀ base : Nat, wfSlots base slots = true →
      ∀ h' ∈ emitHops t slots, base < h'.TTL := by
  induction slots with
  | nil => intro base _ h' hmem; simp [emitHops] at hmem
  | cons o rest ih =>
    intro base hwf h' hmem
    cases o with
    | none =>
      rw [wfSlots] at hwf
      rw [emitHops] at hmem
      have := ih (base + 1) hwf h' hmem
      omega
    | some h =>
      rw [wfSlots, Bool.and_eq_true, beq_iff_eq] at hwf
      rw [emitHops] at hmem
      by_cases hb : (correctFinal t h).IsFinal
      · simp only [if_pos hb, List.mem_singleton] at hmem
        subst hmem
        rw [correctFinal_TTL, hwf.1]
        omega
      · simp only [if_neg hb, List.mem_cons] at hmem
        rcases hmem with rfl | hmem
        · rw [correctFinal_TTL, hwf.1]
          omega
        · have := ih (base + 1) hwf.2 h' hmem
          omega

theorem emitHops_pairwise (t : Nat) (slots : List (Option Hop)) :
    ∀ base : Nat, wfSlots base slots = true →
      (emitHops t slots).Pairwise (fun a b => a.TTL < b.TTL) := by
  induction slots with
  | nil => intro base _; simp [emitHops]
  | cons o rest ih =>
    intro base hwf
    cases o with
    | none =>
      rw [wfSlots] at hwf
      rw [emitHops]
      exact ih (base + 1) hwf
    | some h =>
      rw [wfSlots, Bool.and_eq_true, beq_iff_eq] at hwf
      rw [emitHops]
      by_cases hb : (correctFinal t h).IsFinal
      · simp [if_pos hb]
      · rw [if_neg hb]
        refine List.Pairwise.cons ?_ (ih (base + 1) hwf.2)
        intro g hg
        have := emitHops_TTL_lb t rest (base + 1) hwf.2 g hg
        rw [correctFinal_TTL, hwf.1]
        omega

theorem emitHops_le_final (ips : List String) (slots : List (Option Hop)) :
    ∀ base : Nat, wfSlots base slots = true →
      findTrueFinal ips slots ≠ 0 →
      ∀ h' ∈ emitHops (findTrueFinal ips slots) slots,
        h'.TTL ≤ findTrueFinal ips slots := by
  induction slots with
  | nil => intro base _ _ h' hmem; simp [emitHops] at hmem
  | cons o rest ih =>
    intro base hwf hne h' hmem
    cases o with
    | none =>
      rw [wfSlots] at hwf
      rw [findTrueFinal] at hne ⊢
      rw [emitHops, findTrueFinal] at hmem
      exact ih (base + 1) hwf hne h' hmem
    | some h =>
      rw [wfSlots, Bool.and_eq_true, beq_iff_eq] at hwf
      rw [findTrueFinal] at hne ⊢
      rw [emitHops, findTrueFinal] at hmem
      by_cases hc : finalCandidate ips h
      · rw [if_pos hc] at hne hmem ⊢
        have hfin : (correctFinal h.TTL h).IsFinal := by
          rw [correctFinal_IsFinal]
          simp only [Bool.and_eq_true, decide_eq_true_eq, beq_iff_eq]
          constructor
          · omega
          · trivial
        simp only [if_pos hfin, List.mem_singleton] at hmem
        subst hmem
        rw [correctFinal_TTL]
      · rw [if_neg hc] at hne hmem ⊢
        by_cases hb : (correctFinal (findTrueFinal ips rest) h).IsFinal
        · simp only [if_pos hb, List.mem_singleton] at hmem
          subst hmem
          rw [correctFinal_IsFinal, Bool.and_eq_true, decide_eq_true_eq,
            beq_iff_eq] at hb
          rw [correctFinal_TTL, hb.2]
        · simp only [if_neg hb, List.mem_cons] at hmem
          rcases hmem with rfl | hmem
          · have := findTrueFinal_lb ips rest (base + 1) hwf.2 hne
            rw [correctFinal_TTL, hwf.1]
            omega
          · exact ih (base + 1) hwf.2 hne h' hmem

theorem findTrueFinal_no_success (ips : List String) (slots : List (Option Hop))
    (hns : ∀ h, some h ∈ slots → h.Success = false) :
    findTrueFinal ips slots = 0 := by
  induction slots with
  | nil => rfl
  | cons o rest ih =>
    cases o with
    | none =>
      rw [findTrueFinal]
      exact ih fun h hmem => hns h (List.mem_cons_of_mem _ hmem)
    | some h =>
      rw [findTrueFinal]
      have hsf := hns h (List.mem_cons_self _ _)
      have hc : finalCandidate ips h = false := by
        rw [finalCandidate, hsf, Bool.false_and]
      rw [hc]
      simp only [Bool.false_eq_true, if_false]
      exact ih fun g hmem => hns g (List.mem_cons_of_mem _ hmem)

theorem emitHops_zero_map {α : Type} (l : List α) (f : α → Hop) :
    emitHops 0 (l.map fun a => some (f a)) = l.map fun a => correctFinal 0 (f a) := by
  induction l with
  | nil => simp [emitHops]
  | cons a rest ih =>
    rw [List.map_cons, emitHops]
    have hb : (correctFinal 0 (f a)).IsFinal = false := by
      rw [correctFinal_IsFinal]
      simp
    rw [List.map_cons, ← ih]
    simp [hb]

/-! ## Helper lemmas on the parsers and the probe body -/

theorem unixHopOf_success (s : List Char) (destIP : String) (h : Hop)
    (hok : unixHopOf s destIP = (h, true)) : h.Success = true := by
  unfold unixHopOf at hok
  split at hok
  · simp only [Prod.mk.injEq] at hok
    rw [← hok.1]
  · split at hok
    · simp only [Prod.mk.injEq] at hok
      rw [← hok.1]
    · simp at hok

theorem parseUnixLine_no_success_timeout (line destIP : String) (h : Hop)
    (hok : parseUnixLine line destIP = (h, true)) (hns : h.Success = false) :
    h.IsTimeout = true := by
  simp only [parseUnixLine] at hok
  split at hok
  · split at hok
    · simp only [Prod.mk.injEq] at hok
      rw [← hok.1]
    · have := unixHopOf_success _ _ _ hok
      simp [this] at hns
  · have := unixHopOf_success _ _ _ hok
    simp [this] at hns

theorem firstParsedHop_no_success_timeout (destIP : String) (lines : List String)
    (h : Hop) (hfp : firstParsedHop destIP lines = some h)
    (hns : h.Success = false) : h.IsTimeout = true := by
  induction lines with
  | nil => simp [firstParsedHop] at hfp
  | cons line rest ih =>
    rw [firstParsedHop] at hfp
    split at hfp
    · exact ih hfp
    · split at hfp
      case h_1 h' heq =>
        cases Option.some.inj hfp
        exact parseUnixLine_no_success_timeout _ _ _ heq hns
      case h_2 => exact ih hfp

theorem probeHop_no_success_timeout (destIP : String)
    (rdns : String → Option String) (ttl : Nat) (outLines : List String)
    (hns : (probeHop destIP rdns ttl outLines).Success = false) :
    (probeHop destIP rdns ttl outLines).IsTimeout = true := by
  unfold probeHop at hns ⊢
  rcases hfp : firstParsedHop destIP outLines with _ | h
  · simp [hfp]
  · simp only [hfp, Option.getD_some] at hns ⊢
    by_cases h0 : h.TTL = 0
    · simp [h0]
    · simp only [h0, if_false] at hns ⊢
      by_cases hrd : (h.Success && (h.Hostname == "") && !(h.IP == "")) = true
      · rw [if_pos hrd] at hns
        rw [Bool.and_eq_true, Bool.and_eq_true] at hrd
        have hsucc := hrd.1.1
        exfalso
        rcases hr : rdns h.IP with _ | name <;> rw [hr] at hns <;>
          simp [hsucc] at hns
      · rw [if_neg hrd] at hns ⊢
        exact firstParsedHop_no_success_timeout destIP outLines h hfp hns

theorem probeHop_no_line_synth (destIP : String)
    (rdns : String → Option String) (ttl : Nat) (outLines : List String)
    (hfp : firstParsedHop destIP outLines = none) :
    probeHop destIP rdns ttl outLines =
      { TTL := ttl, Success := false, IsTimeout := true } := by
  unfold probeHop
  simp [hfp]

/-! ## Helper lemmas on cancellation -/

theorem emitHopsCancel_take (t : Nat) (slots : List (Option Hop)) :
    ∀ b : Nat, ∃ k,
      (emitHopsCancel t b slots).1 = (emitHops t slots).take k := by
  induction slots with
  | nil => intro b; exact ⟨0, by simp [emitHopsCancel, emitHops]⟩
  | cons o rest ih =>
    intro b
    cases o with
    | none =>
      obtain ⟨k, hk⟩ := ih b
      exact ⟨k, by simpa [emitHopsCancel, emitHops] using hk⟩
    | some h =>
      cases b with
      | zero => exact ⟨0, by simp [emitHopsCancel]⟩
      | succ b' =>
        by_cases hb : (correctFinal t h).IsFinal
        · exact ⟨1, by simp [emitHopsCancel, emitHops, hb]⟩
        · obtain ⟨k, hk⟩ := ih b'
          exact ⟨k + 1, by simp [emitHopsCancel, emitHops, hb, hk]⟩

theorem seqLoopCancel_take (goos destIP : String) (lines : List String) :
    ∀ b last : Nat, ∃ k,
      (seqLoopCancel goos destIP b lines last).emitted =
        (seqLoop goos destIP lines last).emitted.take k := by
  induction lines with
  | nil => intro b last; exact ⟨0, by simp [seqLoopCancel, seqLoop]⟩
  | cons line rest ih =>
    intro b last
    cases b with
    | zero => exact ⟨0, by simp [seqLoopCancel]⟩
    | succ b' =>
      by_cases hs : skipLine line
      · obtain ⟨k, hk⟩ := ih b' last
        exact ⟨k, by simpa [seqLoopCancel, seqLoop, hs] using hk⟩
      · rcases hp : seqParse goos line destIP with ⟨hop, ok⟩
        cases ok with
        | false =>
          obtain ⟨k, hk⟩ := ih b' last
          exact ⟨k, by simpa [seqLoopCancel, seqLoop, hs, hp] using hk⟩
        | true =>
          by_cases hf : hop.IsFinal
          · exact ⟨1, by simp [seqLoopCancel, seqLoop, hs, hp, hf]⟩
          · obtain ⟨k, hk⟩ :=
              ih b' (if last < hop.TTL then hop.TTL else last)
            exact ⟨k + 1, by simp [seqLoopCancel, seqLoop, hs, hp, hf, hk]⟩

/-! ## Claims -/

/-- C1: after all per-TTL probes complete, the reconciliation step of
`runParallel` selects as the one true final hop the lowest TTL whose hop
succeeded and whose address is in the resolved destination set (or was
already marked locally final), clears the final flag on every other hop,
and emits hops in ascending TTL order stopping right after the true final
hop, so no emitted hop has a TTL above the true final TTL.  Stated for a
well-formed results buffer, in which slot `i` records TTL `i+1` as pinned
by the probe arguments. -/
theorem parallel_reconciliation_correct (ips : List String)
    (slots : List (Option Hop)) (hwf : wfSlots 0 slots = true) :
    ReconcileSpec ips slots := by
  unfold ReconcileSpec reconcileEmit
  refine ⟨findTrueFinal_split ips slots, ?_, ?_, ?_⟩
  · exact emitHops_mem_isFinal _ _
  · exact emitHops_pairwise _ _ 0 hwf
  · intro hne
    exact emitHops_le_final ips slots 0 hwf hne

/-- Witness for C1: the scenario of the specification.  The destination
resolves to one address, TTLs 1 to 5 answer with non-final hops, TTLs 6 and
9 both answer with the destination address: exactly the hops of TTL 1 to 6
are emitted, TTL 6 is marked final, and the outcome is the reached one
(`nil` error). -/
theorem parallel_reconciliation_correct_witness :
    ReconcileSpec scIPs scSlots ∧
    runParallelPure scIPs "93.184.216.34" rdnsNone 9 scOut =
      ([⟨1, "10.0.0.1", "", 10, true, false, false⟩,
        ⟨2, "10.0.0.2", "", 20, true, false, false⟩,
        ⟨3, "10.0.0.3", "", 30, true, false, false⟩,
        ⟨4, "10.0.0.4", "", 40, true, false, false⟩,
        ⟨5, "10.0.0.5", "", 50, true, false, false⟩,
        ⟨6, "93.184.216.34", "", 60, true, true, false⟩], none) :=
  ⟨parallel_reconciliation_correct scIPs scSlots (by decide), by decide⟩

/-- C2: after reconciliation in a parallel run, at most one emitted hop is
marked final, and every emitted hop marked final succeeded.  Stated for a
well-formed results buffer. -/
theorem parallel_final_flag_invariant (ips : List String)
    (slots : List (Option Hop)) (hwf : wfSlots 0 slots = true) :
    FinalFlagSpec ips slots := by
  unfold FinalFlagSpec reconcileEmit
  constructor
  · exact emitHops_countP_le_one _ _
  · intro h hmem hfin
    have hflag := (emitHops_mem_isFinal _ _ h hmem).symm
    rw [hfin, Bool.and_eq_true, decide_eq_true_eq, beq_iff_eq] at hflag
    obtain ⟨hpos, httl⟩ := hflag
    have hne : findTrueFinal ips slots ≠ 0 := by omega
    obtain ⟨pre1, h1, suf1, hsplit1, hc1, ht1, _⟩ :=
      findTrueFinal_split ips slots hne
    obtain ⟨pre2, h2, suf2, hsplit2, hcorr⟩ := emitHops_origin _ _ h hmem
    have e1 : h1.TTL = 0 + pre1.length + 1 :=
      wfSlots_split_TTL pre1 0 h1 suf1 (hsplit1 ▸ hwf)
    have e2 : h2.TTL = 0 + pre2.length + 1 :=
      wfSlots_split_TTL pre2 0 h2 suf2 (hsplit2 ▸ hwf)
    have hT2 : h.TTL = h2.TTL := by rw [hcorr, correctFinal_TTL]
    have hlen : pre1.length = pre2.length := by omega
    have heq : pre1 ++ some h1 :: suf1 = pre2 ++ some h2 :: suf2 := by
      rw [← hsplit1, ← hsplit2]
    obtain ⟨hpre, hrest⟩ := List.append_inj heq hlen
    simp only [List.cons.injEq, Option.some.injEq] at hrest
    rw [hcorr, correctFinal_Success, ← hrest.1]
    unfold finalCandidate at hc1
    rw [Bool.and_eq_true] at hc1
    exact hc1.1

/-- Witness for C2 at the reconciliation scenario. -/
theorem parallel_final_flag_invariant_witness : FinalFlagSpec scIPs scSlots :=
  parallel_final_flag_invariant scIPs scSlots (by decide)

/-- C3: a parallel run (not cancelled) in which no probe succeeds returns
the max-hops error and emits exactly `maxHops` hops, the one at index `k`
being a failed timed-out hop of TTL `k+1`; and a probe whose output
contains no hop-shaped line is synthesized as a timed-out hop rather than
dropped.  The two hypotheses say that no probe succeeded and that each
probe reported its own TTL, as pinned by the probe arguments. -/
theorem parallel_no_success_max_hops (destIPs : List String) (destIP : String)
    (rdns : String → Option String) (maxHops : Nat) (out : Nat → List String)
    (hns : ∀ i, i < maxHops →
      (probeHop destIP rdns (i + 1) (out (i + 1))).Success = false)
    (hwf : ∀ i, i < maxHops →
      (probeHop destIP rdns (i + 1) (out (i + 1))).TTL = i + 1) :
    NoSuccessSpec destIPs destIP rdns maxHops out := by
  have hmem : ∀ h, some h ∈ probeSlots destIP rdns maxHops out →
      h.Success = false := by
    intro h hm
    unfold probeSlots at hm
    obtain ⟨i, hi, hh⟩ := List.mem_map.mp hm
    cases Option.some.inj hh
    exact hns i (List.mem_range.mp hi)
  have ht0 : findTrueFinal destIPs (probeSlots destIP rdns maxHops out) = 0 :=
    findTrueFinal_no_success _ _ hmem
  have hemit : emitHops 0 (probeSlots destIP rdns maxHops out) =
      (List.range maxHops).map
        (fun i => correctFinal 0 (probeHop destIP rdns (i + 1) (out (i + 1)))) := by
    unfold probeSlots
    exact emitHops_zero_map (List.range maxHops) _
  unfold NoSuccessSpec runParallelPure reconcileEmit
  rw [ht0]
  refine ⟨rfl, ?_, ?_, ?_⟩
  · simp [hemit]
  · intro k hk
    refine ⟨correctFinal 0 (probeHop destIP rdns (k + 1) (out (k + 1))), ?_, ?_, ?_, ?_⟩
    · simp only [hemit, List.getElem?_map, List.getElem?_range, hk]
      rfl
    · rw [correctFinal_TTL]
      exact hwf k hk
    · rw [correctFinal_Success]
      exact hns k hk
    · show (probeHop destIP rdns (k + 1) (out (k + 1))).IsTimeout = true
      exact probeHop_no_success_timeout _ _ _ _ (hns k hk)
  · intro ttl outLines hfp
    exact probeHop_no_line_synth destIP rdns ttl outLines hfp

/-- Witness for C3: the scenario with a hop budget of 3 and every probe
producing no hop-shaped output, giving three synthesized timed-out hops in
TTL order and the max-hops outcome. -/
theorem parallel_no_success_max_hops_witness : NoSuccessSpec [] "" rdnsNone 3 nsOut :=
  parallel_no_success_max_hops [] "" rdnsNone 3 nsOut (by decide) (by decide)

/-- C4: a run cancelled before completion terminates with the cancellation
outcome: the returned terminal error is the `nil` value, never the
max-hops error or a failure (and the caller, which cancelled, classifies
it as cancelled), and the hops emitted by the cancelled run are an initial
segment of those of the uncancelled run, so no hop beyond what had already
been discovered is emitted after cancellation.  Stated for both the
parallel reconciliation and the sequential loop, with cancellation
observed at the select statements the code actually has. -/
theorem cancelled_run_returns_nil (ips : List String)
    (slots : List (Option Hop)) (budget : Nat) (goos destIP : String)
    (maxHops : Nat) (lines : List String) (sbudget : Nat)
    (hintr : (seqLoopCancel goos destIP sbudget lines 0).interrupted = true) :
    CancelSpec ips slots budget goos destIP maxHops lines sbudget := by
  refine ⟨rfl, ?_, ?_, ?_⟩
  · exact emitHopsCancel_take (findTrueFinal ips slots) slots budget
  · simp only [runSequentialCancelled, hintr, if_true]
  · exact seqLoopCancel_take goos destIP lines sbudget 0

/-- Witness for C4: cancellation observed at the first loop iteration of a
sequential run. -/
theorem cancelled_run_returns_nil_witness :
    CancelSpec scIPs scSlots 2 "linux" "1.2.3.4" 30 [" 1  10.0.0.1  10 ms"] 0 :=
  cancelled_run_returns_nil scIPs scSlots 2 "linux" "1.2.3.4" 30
    [" 1  10.0.0.1  10 ms"] 0 (by decide)

/-- C5: a line matching the timeout pattern on which a hop pattern (numeric
or named) also matches is parsed by `parseUnixLine` as a successful hop,
never as a timeout: the timeout pattern alone never wins when an address
and RTT are present in the same line. -/
theorem parse_unix_hop_beats_timeout (line destIP : String)
    (htm : (matchUnixTimeout line.toList).isSome = true)
    (hhop : (matchUnixNumeric line.toList).isSome = true ∨
      (matchUnixNamed line.toList).isSome = true) :
    HopBeatsTimeout line destIP := by
  have hcond : (line.toList.contains '*' &&
      (matchUnixNumeric line.toList).isNone &&
      (matchUnixNamed line.toList).isNone) = false := by
    rcases hhop with h1 | h1
    · obtain ⟨v, hv⟩ := Option.isSome_iff_exists.mp h1
      rw [hv]
      simp
    · obtain ⟨v, hv⟩ := Option.isSome_iff_exists.mp h1
      rw [hv]
      simp
  obtain ⟨ds, hds⟩ := Option.isSome_iff_exists.mp htm
  have hparse : parseUnixLine line destIP = unixHopOf line.toList destIP := by
    simp only [parseUnixLine, hds, hcond]
    simp
  unfold HopBeatsTimeout
  rw [hparse]
  unfold unixHopOf
  rcases hn : matchUnixNumeric line.toList with _ | ⟨ttl, ip, rtt⟩
  · rcases hm : matchUnixNamed line.toList with _ | ⟨ttl, host, ip, rtt⟩
    · rw [hn] at hcond
      rw [hm] at hcond
      rcases hhop with h1 | h1
      · rw [hn] at h1
        simp at h1
      · rw [hm] at h1
        simp at h1
    · exact ⟨rfl, rfl⟩
  · exact ⟨rfl, rfl⟩

/-- Witness for C5: a line on which both the timeout pattern and the named
hop pattern match is parsed as a successful hop. -/
theorem parse_unix_hop_beats_timeout_witness :
    HopBeatsTimeout " 1  * (9.9.9.9)  3 ms" "9.9.9.9" :=
  parse_unix_hop_beats_timeout " 1  * (9.9.9.9)  3 ms" "9.9.9.9"
    (by decide) (Or.inr (by decide))

/-- C6 (amended): on the branches that pass the wait in whole seconds (the
parallel per-TTL invocation and the non-windows sequential invocation) the
per-hop wait is clamped upward to at least one second whenever `TimeoutMs`
is positive.  The windows sequential branch is excluded: it passes
`TimeoutMs` in milliseconds unclamped, see the counterexample. -/
theorem wait_clamped_on_seconds_branches (opts : Options) (ttl : Nat)
    (binary dest : String) (_hpos : 0 < opts.TimeoutMs) :
    ClampSpec opts ttl binary dest := by
  refine ⟨?_, rfl, rfl, ?_⟩
  · simp only [clampTimeoutSecs]
    split <;> omega
  · intro goos hg
    unfold sequentialCmd
    rw [if_neg hg]
    exact ⟨rfl, rfl⟩

/-- Witness for C6 (amended) with a sub-second timeout of 500 ms, clamped
to a 1 second wait on the seconds-based branches. -/
theorem wait_clamped_on_seconds_branches_witness :
    ClampSpec { MaxHops := 30, TimeoutMs := 500 } 4 "/usr/sbin/traceroute"
      "example.com" :=
  wait_clamped_on_seconds_branches { MaxHops := 30, TimeoutMs := 500 } 4
    "/usr/sbin/traceroute" "example.com" (by decide)

/-- Counterexample to C6 as stated: with a positive `TimeoutMs` of 500 ms
(below the claimed 1000 ms minimum) the windows sequential branch passes
the value 500 after the wait flag of `tracert`, whose unit is
milliseconds, so that probe invocation waits 500 ms per hop, not the
claimed minimum of one second. -/
theorem seq_windows_wait_unclamped :
    ((sequentialCmd "windows" { MaxHops := 30, TimeoutMs := 500 } "tracert"
      "example.com").2)[2]? = some "-w" ∧
    ((sequentialCmd "windows" { MaxHops := 30, TimeoutMs := 500 } "tracert"
      "example.com").2)[3]? = some "500" ∧ 500 < 1000 := by
  refine ⟨by decide, by decide, by omega⟩

/-- C7: a line matching none of the recognized patterns is reported as not
a data line by both parsers, with the zero hop; the parsers are total and
have no error outcome at all, so unrecognized warnings and banners are
skipped, never fatal. -/
theorem parse_unrecognized_not_data (line destIP : String)
    (h1 : matchUnixTimeout line.toList = none)
    (h2 : matchUnixNumeric line.toList = none)
    (h3 : matchUnixNamed line.toList = none)
    (h4 : matchWinHop line.toList = none) :
    NotDataLine line destIP := by
  constructor
  · simp only [parseUnixLine, h1]
    unfold unixHopOf
    rw [h2, h3]
  · simp only [parseWindowsLine, matchWinTimeout, h1, h4]
    simp

/-- Witness for C7: the traceroute banner line matches no pattern and is
reported as not a data line by both parsers. -/
theorem parse_unrecognized_not_data_witness :
    NotDataLine "traceroute to example.com (93.184.216.34), 30 hops max" "" :=
  parse_unrecognized_not_data _ "" (by decide) (by decide) (by decide) (by decide)

/-- C8: the destination resolver returns the set of IPv4 addresses of the
destination: a literal IPv4 address yields the singleton containing exactly
that address, hostname resolution failure degrades to the empty set (the
resolver has no error outcome, so it is never fatal to the run) with the
display address falling back to the host string, and every address in the
set is an IPv4 literal.  With the empty set the reconciliation final-hop
test degrades to the locally computed flag, which the parser computed by
literal equality against the single display address. -/
theorem resolver_contract (lookupHost : String → Option (List String))
    (host : String) : ResolveSpec lookupHost host := by
  refine ⟨?_, ?_, ?_, ?_⟩
  · intro hlit
    constructor
    · unfold resolveIPs
      rw [if_pos hlit]
    · unfold resolveIP resolveIPs
      rw [if_pos hlit]
  · intro hlit hlk
    constructor
    · unfold resolveIPs
      rw [hlit]
      simp [hlk]
    · unfold resolveIP resolveIPs
      rw [hlit]
      simp [hlk]
  · intro a ha
    unfold resolveIPs at ha
    by_cases hlit : isGoIPv4Literal host
    · rw [if_pos hlit] at ha
      rw [List.mem_singleton.mp ha]
      exact hlit
    · rw [if_neg hlit] at ha
      rcases hlk : lookupHost host with _ | addrs
      · rw [hlk] at ha
        simp at ha
      · rw [hlk] at ha
        have := List.mem_dedup.mp ha
        exact (List.mem_filter.mp this).2
  · intro h
    unfold finalCandidate
    simp

/-- Witness for C8: a literal destination resolves to its own singleton,
and an unresolvable hostname resolves to the empty set with the host as
fallback display address. -/
theorem resolver_contract_witness :
    ResolveSpec lookupNone "93.184.216.34" ∧ ResolveSpec lookupNone "no.example" :=
  ⟨resolver_contract lookupNone "93.184.216.34",
   resolver_contract lookupNone "no.example"⟩

/-- C9: both line parsers are pure functions of the line and the display
address: parsing the same line twice yields identical results, every hop
field and the data-line flag included.  In the embedding this holds
definitionally; in the source the two functions read only their arguments
and package-level compiled regexes, which are immutable and safe for
concurrent use, so repeated calls return equal values. -/
theorem parse_deterministic (line destIP : String) :
    parseUnixLine line destIP = parseUnixLine line destIP ∧
    parseWindowsLine line destIP = parseWindowsLine line destIP :=
  ⟨rfl, rfl⟩

/-- C10: when the sequential probe output stream ends before any hop is
recognized as final and the highest parsed TTL is strictly below the hop
budget, the run returns the `nil` error, which is the same terminal value
every reached run returns, so the caller cannot distinguish such an early
termination from a reached destination by the terminal signal alone. -/
theorem seq_early_end_returns_nil (goos destIP : String) (maxHops : Nat)
    (lines : List String)
    (hr : (seqLoop goos destIP lines 0).reached = false)
    (hl : (seqLoop goos destIP lines 0).lastTTL < maxHops) :
    SeqNilSpec goos destIP maxHops lines := by
  constructor
  · simp only [runSequentialPure, hr]
    rw [decide_eq_false (Nat.not_le.mpr hl)]
    simp
  · intro lines2 hr2
    simp only [runSequentialPure, hr2]
    simp

/-- Witness for C10: a stream consisting of one unparseable line ends with
no hop parsed and returns the `nil` error. -/
theorem seq_early_end_returns_nil_witness :
    SeqNilSpec "linux" "1.2.3.4" 30 ["garbage output line"] :=
  seq_early_end_returns_nil "linux" "1.2.3.4" 30 ["garbage output line"]
    (by decide) (by decide)

end Traceroute
